import Mathlib

/-!
Verification development for `prep.c`, a recursive multi-threaded whole-word
text search tool (a constrained `grep -Rnw` equivalent).

Strings from the C program (file contents, search terms, paths) are modelled
as `List Nat` of byte values; a C string holds no NUL byte, so the end of the
list plays the role of the terminating NUL.  Machine `int` values are
modelled as `Int`.
-/

namespace Paragrep

/-- Delimiter byte set from the C array `delimit` (src/prep.c line 52):
space, tab, CR, LF, period, comma, colon, question mark, exclamation mark,
backtick, parentheses, square brackets, hyphen, slash, single quote, double
quote, angle brackets. -/
def delimit : List Nat :=
  [32, 9, 13, 10, 46, 44, 58, 63, 33, 96, 40, 41, 91, 93, 45, 47, 39, 34, 60, 62]

/-- Membership in the delimiter set. -/
def isDelim (c : Nat) : Bool := delimit.contains c

/-- ASCII `tolower` as used by `strcasecmp` in the C locale: uppercase
letters (65..90) are shifted by 32, everything else is unchanged. -/
def tolower (c : Nat) : Nat := if 65 ≤ c ∧ c ≤ 90 then c + 32 else c

/-- C `strcmp` on NUL-free byte lists: the first differing byte (or the
terminating NUL, modelled by list end) decides the sign; result 0 means the
strings agree byte for byte. -/
def strcmp : List Nat → List Nat → Int
  | [], [] => 0
  | [], b :: _ => 0 - (b : Int)
  | a :: _, [] => (a : Int)
  | a :: as, b :: bs => if a = b then strcmp as bs else (a : Int) - (b : Int)

/-- C `strcasecmp`: like `strcmp` but each byte is passed through `tolower`
before comparison. -/
def strcasecmp : List Nat → List Nat → Int
  | [], [] => 0
  | [], b :: _ => 0 - (tolower b : Int)
  | a :: _, [] => (tolower a : Int)
  | a :: as, b :: bs =>
      if tolower a = tolower b then strcasecmp as bs
      else (tolower a : Int) - (tolower b : Int)

/-- The word/term comparison performed in `analyze_file` (src/prep.c lines
136-141): `strcmp` when the `-e` exact flag is set, `strcasecmp` otherwise;
a zero result is a match. -/
def wordEqB (exact : Bool) (w t : List Nat) : Bool :=
  if exact then strcmp w t == 0 else strcasecmp w t == 0

/-- Tokenization of one line as done by the `strtok_r` loop in
`analyze_file` (src/prep.c lines 132-152): maximal runs of non-delimiter
bytes, in order.  `acc` holds the bytes of the current partial token in
reverse. -/
def tokAux : List Nat → List Nat → List (List Nat)
  | acc, [] => if acc.isEmpty then [] else [acc.reverse]
  | acc, c :: cs =>
      if isDelim c then
        (if acc.isEmpty then tokAux [] cs else acc.reverse :: tokAux [] cs)
      else tokAux (c :: acc) cs

/-- All `strtok_r` tokens of a line. -/
def tokenize (s : List Nat) : List (List Nat) := tokAux [] s

/-- Chunk decomposition performed by `fgets(line, 100, file)` in a loop
(src/prep.c line 128): each chunk ends at a newline byte or after 99 bytes
(the 100-byte buffer keeps one slot for the NUL terminator), whichever comes
first; the final chunk may simply end at end of file.  `acc` holds the bytes
of the current partial chunk in reverse. -/
def chunkAux : List Nat → List Nat → List (List Nat)
  | acc, [] => if acc.isEmpty then [] else [acc.reverse]
  | acc, c :: cs =>
      if c == 10 || acc.length + 1 == 99 then (c :: acc).reverse :: chunkAux [] cs
      else chunkAux (c :: acc) cs

/-- All `fgets` chunks of a file's byte content. -/
def chunksS (s : List Nat) : List (List Nat) := chunkAux [] s

/-- Inner `for` loop over the term list (src/prep.c lines 136-150) for one
word: returns how many lines were printed for this word (0 or 1) and the
value of `found` when the loop exits.  The loop breaks right after the first
term that compares equal while `found` is still 0. -/
def termLoop (exact : Bool) (w : List Nat) : List (List Nat) → Bool → Nat × Bool
  | [], found => (0, found)
  | t :: ts, found =>
      if wordEqB exact w t && !found then (1, true)
      else termLoop exact w ts found

/-- Middle `while` loop over the words of one line (src/prep.c lines
134-154): after each word's term loop the code executes `found = 0;`, so the
next word starts with `found` cleared.  Returns the number of prints for the
line and the final value of `found`. -/
def wordLoop (exact : Bool) (terms : List (List Nat)) :
    List (List Nat) → Bool → Nat × Bool
  | [], found => (0, found)
  | w :: ws, found =>
      let r := termLoop exact w terms found
      let rest := wordLoop exact terms ws false
      (r.1 + rest.1, rest.2)

/-- Outer `while (fgets ...)` loop (src/prep.c lines 128-158) over the chunk
list: `line_num` starts at 0 and is incremented once per chunk; each print
emits the pair (current `line_num`, chunk text as copied into `match_line`).
The `found` flag is threaded through exactly as in the C code. -/
def chunkGo (exact : Bool) (terms : List (List Nat)) :
    Nat → Bool → List (List Nat) → List (Nat × List Nat)
  | _, _, [] => []
  | n, found, c :: cs =>
      let r := wordLoop exact terms (tokenize c) found
      List.replicate r.1 (n, c) ++ chunkGo exact terms (n + 1) r.2 cs

/-- `analyze_file` (src/prep.c lines 110-164) on one file's byte content:
the list of (line number, line text) records printed, in order.  `line_num`
starts at 0 and `found` starts at 0. -/
def analyze (exact : Bool) (terms : List (List Nat)) (file : List Nat) :
    List (Nat × List Nat) :=
  chunkGo exact terms 0 false (chunksS file)

/-- Number of words of a line that match at least one term; used to state
what `analyze` really prints. -/
def matchCount (exact : Bool) (terms : List (List Nat)) (c : List Nat) : Nat :=
  ((tokenize c).filter (fun w => terms.any (fun t => wordEqB exact w t))).length

/-- Decimal ASCII digits of a natural number, as `printf("%d", n)` renders a
non-negative `int`.  The fuel argument is always sufficient since the number
loses a digit per step. -/
def natDigitsAux : Nat → Nat → List Nat
  | 0, _ => []
  | fuel + 1, n => if n < 10 then [48 + n] else natDigitsAux fuel (n / 10) ++ [48 + n % 10]

/-- Decimal ASCII rendering of a line number. -/
def natDigits (n : Nat) : List Nat := natDigitsAux (n + 1) n

/-- The byte string actually written by
`printf("%s:%d:%s\n", ptest, line_num, match_line)` (src/prep.c line 145):
path, colon, decimal line number, colon, the raw chunk text, and then one
extra newline byte from the format string. -/
def fmtBytes (path : List Nat) (n : Nat) (c : List Nat) : List Nat :=
  path ++ [58] ++ natDigits n ++ [58] ++ c ++ [10]

/-- Modelled from the spec's output format words: `<file_path>:<line_number>:
<raw_line_including_trailing_newline>` with nothing more — the raw line text
as read (which retains its own trailing newline) and no extra byte.  Used to
compare the spec's claimed format against `fmtBytes`. -/
def specFmt (path : List Nat) (n : Nat) (c : List Nat) : List Nat :=
  path ++ [58] ++ natDigits n ++ [58] ++ c

/-- All byte strings written to standard output by one `analyze_file` task. -/
def emitted (path : List Nat) (exact : Bool) (terms : List (List Nat))
    (file : List Nat) : List (List Nat) :=
  (analyze exact terms file).map (fun r => fmtBytes path r.1 r.2)

/-- A position just after `pre` is a word boundary on the left: start of the
string or a delimiter byte right before it. -/
def leftOkB (pre : List Nat) : Bool :=
  match pre.getLast? with
  | none => true
  | some d => isDelim d

/-- A position at the start of `suf` is a word boundary on the right: end of
the string or a delimiter byte right after it. -/
def rightOkB (suf : List Nat) : Bool :=
  match suf.head? with
  | none => true
  | some d => isDelim d

/-- Whether the line contains an occurrence of (a case-mode variant of) the
term `t` that is bounded on both sides by a delimiter or a string boundary —
a whole-word occurrence in the sense of the spec's glossary.  The search
ranges over every split position of the line. -/
def modeOccB (exact : Bool) (line t : List Nat) : Bool :=
  (List.range (line.length + 1)).any (fun i =>
    let pre := line.take i
    let rest := line.drop i
    let w := rest.take t.length
    (w.length == t.length) && wordEqB exact w t && leftOkB pre && rightOkB (rest.drop t.length))

/-!
Directory walker model.  A filesystem node records exactly the observations
the C code makes through `stat`, `fopen` and `opendir`:

* `statError` — `stat` on the path fails (src/prep.c line 195 takes the
  false branch);
* `file openable content` — `stat` succeeds, `S_ISDIR` is false, and
  `fopen(path, "r")` succeeds iff `openable`;
* `dir listable openable entries` — `stat` succeeds, `S_ISDIR` is true,
  `fopen(path, "r")` succeeds iff `openable` (on Linux opening a directory
  read-only succeeds), and `opendir` succeeds iff `listable`.

Directory entries carry a name (byte list); `readdir` order is the list
order.  Dot entries may appear in the list; `ls` skips names `.` and `..`
(src/prep.c line 185).
-/

/-- Filesystem node as observed by the walker. -/
inductive FSNode where
  | statError
  | file (openable : Bool) (content : List Nat)
  | dir (listable : Bool) (openable : Bool) (entries : List (List Nat × FSNode))

/-- Externally visible walker actions, in program order:
`diag` is one `perror` message on stderr; `dispatch name content` is
`sem_wait` plus `pthread_create(analyze_file, f)` on a regular file handle;
`dispatchDir name` is the same pair of calls made with a directory handle
(whose `fgets` then fails at once, so the task prints nothing). -/
inductive Ev where
  | diag
  | dispatch (name : List Nat) (content : List Nat)
  | dispatchDir (name : List Nat)
deriving DecidableEq

/-- Name equals `.` or `..`. -/
def dotName (name : List Nat) : Bool := name == [46] || name == [46, 46]

/-- Events produced for one directory entry by the loop body of `ls`
(src/prep.c lines 184-215), with `fuel` bounding the recursion depth into
subdirectories (any fuel at least the tree depth gives the full walk).  In
the C code the `fopen`/dispatch block (lines 197-207) runs for every entry
whose `stat` succeeded — directories included — and the `S_ISDIR` recursion
(lines 209-211) runs afterwards; a failing `opendir` inside the recursion
prints one `perror` (line 219). -/
def entryEvs : Nat → List Nat → FSNode → List Ev
  | _, _, FSNode.statError => []
  | _, name, FSNode.file op content =>
      if op then [Ev.dispatch name content] else [Ev.diag]
  | 0, name, FSNode.dir listable op _ =>
      (if op then [Ev.dispatchDir name] else [Ev.diag]) ++
        (if listable then [] else [Ev.diag])
  | fuel + 1, name, FSNode.dir listable op entries =>
      (if op then [Ev.dispatchDir name] else [Ev.diag]) ++
        (if listable then
          (entries.map (fun e => if dotName e.1 then [] else entryEvs fuel e.1 e.2)).flatten
        else [Ev.diag])

/-- Events of the `readdir` loop over a directory's entries. -/
def walkEvs (fuel : Nat) (entries : List (List Nat × FSNode)) : List Ev :=
  (entries.map (fun e => if dotName e.1 then [] else entryEvs fuel e.1 e.2)).flatten

/-- `ls(path)` on the root (src/prep.c lines 176-223): `opendir` the root;
on success walk the entries, otherwise a single `perror`. -/
def lsRun (fuel : Nat) (root : FSNode) : List Ev :=
  match root with
  | FSNode.dir true _ entries => walkEvs fuel entries
  | _ => [Ev.diag]

/-- Whether `opendir` on the root succeeds. -/
def listableRoot : FSNode → Bool
  | FSNode.dir true _ _ => true
  | _ => false

/-- Outcome of one whole run of `main` after option parsing (src/prep.c
lines 267-285): diagnostics count, the match records produced by all
dispatched searcher tasks, and the process exit status.  `main` ends in
`pthread_exit(0)`, so once the walk (and all workers) finish the process
exits with status 0 on every path that reaches the walk. -/
structure RunOut where
  diagCount : Nat
  matchList : List (List Nat × Nat × List Nat)
  exitCode : Nat
deriving DecidableEq

/-- Event is a diagnostic. -/
def isDiag : Ev → Bool
  | Ev.diag => true
  | _ => false

/-- Match records contributed by one walker event: a searcher dispatched on
a regular file produces its `analyze` records tagged with the path; a
searcher dispatched on a directory handle reads nothing (`fgets` fails
immediately) and produces none. -/
def evMatches (exact : Bool) (terms : List (List Nat)) : Ev → List (List Nat × Nat × List Nat)
  | Ev.dispatch name content => (analyze exact terms content).map (fun r => (name, r.1, r.2))
  | _ => []

/-- One run of the search over the modelled filesystem. -/
def runRoot (fuel : Nat) (exact : Bool) (terms : List (List Nat)) (root : FSNode) : RunOut :=
  ⟨((lsRun fuel root).filter isDiag).length,
   (lsRun fuel root).flatMap (evMatches exact terms),
   0⟩

/-!
Concurrency limiter model.  Each searcher task passes through the phases

  pending  → (sem_wait; pthread_create, src/prep.c lines 204-205) →
  scanning → (sem_post, line 160) →
  released → (fclose, line 161) →
  closed.

A task holds an open file handle while `scanning` or `released`: the C code
posts the semaphore *before* closing the handle.  The state abstracts the
task pool by phase counts plus the semaphore value; every interleaving of
the real threads is a path in this relation. -/
structure LimSt where
  sem : Nat
  pending : Nat
  scanning : Nat
  released : Nat
  closedT : Nat
deriving DecidableEq

/-- One atomic step of the walker or of a searcher task. -/
inductive LStep : LimSt → LimSt → Prop where
  | spawn (s : LimSt) : 0 < s.sem → 0 < s.pending →
      LStep s ⟨s.sem - 1, s.pending - 1, s.scanning + 1, s.released, s.closedT⟩
  | rel (s : LimSt) : 0 < s.scanning →
      LStep s ⟨s.sem + 1, s.pending, s.scanning - 1, s.released + 1, s.closedT⟩
  | close (s : LimSt) : 0 < s.released →
      LStep s ⟨s.sem, s.pending, s.scanning, s.released - 1, s.closedT + 1⟩

/-- Start state: `sem_init(&sem, 0, max_threads)` (src/prep.c line 267) with
capacity `K`, and `n` files still to be discovered. -/
def limInit (K n : Nat) : LimSt := ⟨K, n, 0, 0, 0⟩

/-- Reachability in the limiter transition system. -/
def Reach (K n : Nat) (s : LimSt) : Prop :=
  Relation.ReflTransGen LStep (limInit K n) s

/-- Number of tasks currently holding an open file handle. -/
def handles (s : LimSt) : Nat := s.scanning + s.released

/-!
Configuration parsing model for the `-t` option (src/prep.c lines 244-250):
`max_threads = atoi(optarg)` followed by `if (max_threads < 1 ||
max_threads > num_cores) { printf(...); abort(); }`, all before `ls` runs.
-/

/-- Byte is an ASCII decimal digit. -/
def isDigit (c : Nat) : Bool := 48 ≤ c && c ≤ 57

/-- Byte is C `isspace` white space (space, tab, LF, VT, FF, CR). -/
def isSpaceB (c : Nat) : Bool := c == 32 || (9 ≤ c && c ≤ 13)

/-- Digit-accumulation loop of C `atoi`: consume digits, stop at the first
non-digit. -/
def atoiDigits : List Nat → Nat → Nat
  | [], acc => acc
  | c :: cs, acc => if isDigit c then atoiDigits cs (acc * 10 + (c - 48)) else acc

/-- C `atoi`: skip white space, read an optional sign, then the longest
digit prefix; 0 when there are no digits.  Overflow is ignored. -/
def atoi (s : List Nat) : Int :=
  match s.dropWhile isSpaceB with
  | [] => 0
  | c :: r =>
      if c = 43 then (atoiDigits r 0 : Int)
      else if c = 45 then -((atoiDigits r 0 : Int))
      else (atoiDigits (c :: r) 0 : Int)

/-- Value of an ASCII digit string. -/
def digitsToNat (s : List Nat) : Nat := s.foldl (fun a c => a * 10 + (c - 48)) 0

/-- Modelled from the spec's word "malformed": a well-formed concurrency
value is exactly an optional sign followed by a nonempty run of digits, and
its integer value; anything else is malformed (`none`). -/
def intLitVal (s : List Nat) : Option Int :=
  match s with
  | [] => none
  | c :: r =>
      if c = 43 then (if r ≠ [] ∧ r.all isDigit then some ((digitsToNat r : Nat) : Int) else none)
      else if c = 45 then (if r ≠ [] ∧ r.all isDigit then some (-((digitsToNat r : Nat) : Int)) else none)
      else (if (c :: r).all isDigit then some ((digitsToNat (c :: r) : Nat) : Int) else none)

/-- Result of processing the `-t` option. -/
inductive CfgOutcome where
  | aborted
  | proceed (k : Int)
deriving DecidableEq

/-- The `case 't'` branch of the option loop (src/prep.c lines 244-250). -/
def tOption (numCores : Int) (arg : List Nat) : CfgOutcome :=
  let k := atoi arg
  if k < 1 ∨ numCores < k then CfgOutcome.aborted else CfgOutcome.proceed k

/-- A run of `main` given a `-t` argument: `abort()` fires inside the option
loop, before `ls` is ever called, so an aborted configuration produces no
traversal at all (`none`); otherwise the walk runs to completion. -/
def runWithT (numCores : Int) (arg : List Nat) (fuel : Nat) (exact : Bool)
    (terms : List (List Nat)) (root : FSNode) : Option RunOut :=
  match tOption numCores arg with
  | CfgOutcome.aborted => none
  | CfgOutcome.proceed _ => some (runRoot fuel exact terms root)

/-! Helper lemmas about the byte-level comparison functions. -/

theorem tolower_eq_zero {c : Nat} : tolower c = 0 ↔ c = 0 := by
  unfold tolower; split <;> omega

theorem strcmp_eq_zero : ∀ {a b : List Nat}, (0 : Nat) ∉ a → (0 : Nat) ∉ b →
    (strcmp a b = 0 ↔ a = b) := by
  intro a
  induction a with
  | nil =>
      intro b ha hb
      cases b with
      | nil => simp [strcmp]
      | cons x xs =>
          have hx : x ≠ 0 := fun h => hb (by simp [h])
          simp only [strcmp]
          constructor
          · intro h; exact absurd (by omega : x = 0) hx
          · intro h; exact List.noConfusion h
  | cons x xs ih =>
      intro b ha hb
      cases b with
      | nil =>
          have hx : x ≠ 0 := fun h => ha (by simp [h])
          simp only [strcmp]
          constructor
          · intro h; exact absurd (by omega : x = 0) hx
          · intro h; exact List.noConfusion h
      | cons y ys =>
          have ha' : (0 : Nat) ∉ xs := fun h => ha (List.mem_cons_of_mem x h)
          have hb' : (0 : Nat) ∉ ys := fun h => hb (List.mem_cons_of_mem y h)
          by_cases hxy : x = y
          · subst hxy
            have h2 := ih ha' hb'
            constructor
            · intro h
              have hs : strcmp xs ys = 0 := by simpa [strcmp] using h
              rw [h2.mp hs]
            · intro h
              have hs : xs = ys := ((List.cons.injEq _ _ _ _).mp h).2
              simpa [strcmp] using h2.mpr hs
          · constructor
            · intro h
              have hd : (x : Int) - (y : Int) = 0 := by simpa [strcmp, hxy] using h
              exact absurd (by omega : x = y) hxy
            · intro h
              exact absurd ((List.cons.injEq _ _ _ _).mp h).1 hxy

theorem strcasecmp_eq_zero : ∀ {a b : List Nat}, (0 : Nat) ∉ a → (0 : Nat) ∉ b →
    (strcasecmp a b = 0 ↔ a.map tolower = b.map tolower) := by
  intro a
  induction a with
  | nil =>
      intro b ha hb
      cases b with
      | nil => simp [strcasecmp]
      | cons x xs =>
          have hx : x ≠ 0 := fun h => hb (by simp [h])
          have hx' : tolower x ≠ 0 := fun h => hx (tolower_eq_zero.mp h)
          simp only [strcasecmp, List.map_nil, List.map_cons]
          constructor
          · intro h; exact absurd (by omega : tolower x = 0) hx'
          · intro h; exact List.noConfusion h
  | cons x xs ih =>
      intro b ha hb
      cases b with
      | nil =>
          have hx : x ≠ 0 := fun h => ha (by simp [h])
          have hx' : tolower x ≠ 0 := fun h => hx (tolower_eq_zero.mp h)
          simp only [strcasecmp, List.map_nil, List.map_cons]
          constructor
          · intro h; exact absurd (by omega : tolower x = 0) hx'
          · intro h; exact List.noConfusion h
      | cons y ys =>
          have ha' : (0 : Nat) ∉ xs := fun h => ha (List.mem_cons_of_mem x h)
          have hb' : (0 : Nat) ∉ ys := fun h => hb (List.mem_cons_of_mem y h)
          by_cases hxy : tolower x = tolower y
          · have h2 := ih ha' hb'
            constructor
            · intro h
              have hs : strcasecmp xs ys = 0 := by simpa [strcasecmp, hxy] using h
              simp only [List.map_cons, hxy, h2.mp hs]
            · intro h
              have hs : xs.map tolower = ys.map tolower :=
                ((List.cons.injEq _ _ _ _).mp (by simpa [List.map_cons] using h)).2
              simpa [strcasecmp, hxy] using h2.mpr hs
          · constructor
            · intro h
              have hd : (tolower x : Int) - (tolower y : Int) = 0 := by
                simpa [strcasecmp, hxy] using h
              exact absurd (by omega : tolower x = tolower y) hxy
            · intro h
              have := ((List.cons.injEq _ _ _ _).mp (by simpa [List.map_cons] using h)).1
              exact absurd this hxy

theorem wordEqB_exact {w t : List Nat} (hw : (0 : Nat) ∉ w) (ht : (0 : Nat) ∉ t) :
    wordEqB true w t = true ↔ w = t := by
  show (strcmp w t == 0) = true ↔ w = t
  rw [beq_iff_eq]
  exact strcmp_eq_zero hw ht

theorem wordEqB_insens {w t : List Nat} (hw : (0 : Nat) ∉ w) (ht : (0 : Nat) ∉ t) :
    wordEqB false w t = true ↔ w.map tolower = t.map tolower := by
  show (strcasecmp w t == 0) = true ↔ w.map tolower = t.map tolower
  rw [beq_iff_eq]
  exact strcasecmp_eq_zero hw ht

theorem wordEqB_length {e : Bool} {w t : List Nat} (hw : (0 : Nat) ∉ w)
    (ht : (0 : Nat) ∉ t) (h : wordEqB e w t = true) : w.length = t.length := by
  cases e
  · have := (wordEqB_insens hw ht).mp h
    have : (w.map tolower).length = (t.map tolower).length := by rw [this]
    simpa using this
  · rw [(wordEqB_exact hw ht).mp h]

/-! Helper lemmas characterizing the scan loops of `analyze_file`. -/

theorem termLoop_false (exact : Bool) (w : List Nat) :
    ∀ terms : List (List Nat), termLoop exact w terms false =
      (if terms.any (fun t => wordEqB exact w t) then (1, true) else (0, false)) := by
  intro terms
  induction terms with
  | nil => simp [termLoop]
  | cons t ts ih =>
      simp only [termLoop, List.any_cons, Bool.not_false, Bool.and_true]
      by_cases h : wordEqB exact w t = true
      · simp [h]
      · simp only [Bool.not_eq_true] at h
        simp [h, ih]

theorem wordLoop_false (exact : Bool) (terms : List (List Nat)) :
    ∀ ws : List (List Nat), wordLoop exact terms ws false =
      ((ws.filter (fun w => terms.any (fun t => wordEqB exact w t))).length, false) := by
  intro ws
  induction ws with
  | nil => simp [wordLoop]
  | cons w ws ih =>
      simp only [wordLoop, ih, termLoop_false, List.filter_cons]
      by_cases h : (terms.any (fun t => wordEqB exact w t)) = true
      · simp [h, Nat.add_comm]
      · simp only [Bool.not_eq_true] at h
        simp [h]

theorem chunkGo_enum (exact : Bool) (terms : List (List Nat)) :
    ∀ (cs : List (List Nat)) (n : Nat), chunkGo exact terms n false cs =
      (cs.enumFrom n).flatMap (fun p => List.replicate (matchCount exact terms p.2) p) := by
  intro cs
  induction cs with
  | nil => intro n; simp [chunkGo, List.enumFrom]
  | cons c cs ih =>
      intro n
      simp only [chunkGo, wordLoop_false, List.enumFrom, List.flatMap_cons]
      rw [ih]
      rfl

theorem analyze_enum (exact : Bool) (terms : List (List Nat)) (file : List Nat) :
    analyze exact terms file =
      ((chunksS file).enumFrom 0).flatMap
        (fun p => List.replicate (matchCount exact terms p.2) p) :=
  chunkGo_enum exact terms (chunksS file) 0

/-! Helper lemmas about the `fgets` chunk decomposition. -/

theorem chunkAux_len : ∀ (cs acc : List Nat), acc.length ≤ 98 →
    ∀ c ∈ chunkAux acc cs, 1 ≤ c.length ∧ c.length ≤ 99 := by
  intro cs
  induction cs with
  | nil =>
      intro acc hacc c hc
      simp only [chunkAux] at hc
      by_cases h : acc.isEmpty
      · simp [h] at hc
      · rw [if_neg h] at hc
        have : c = acc.reverse := by simpa using hc
        subst this
        have hne : acc ≠ [] := fun e => h (by simp [e])
        have : 1 ≤ acc.length := List.length_pos.mpr hne
        simp [List.length_reverse]
        omega
  | cons b bs ih =>
      intro acc hacc c hc
      simp only [chunkAux] at hc
      by_cases h : (b == 10 || acc.length + 1 == 99) = true
      · rw [if_pos h] at hc
        rcases List.mem_cons.mp hc with h1 | h2
        · subst h1
          simp [List.length_reverse]
          omega
        · exact ih [] (by simp) c h2
      · rw [if_neg h] at hc
        have hlt : acc.length + 1 ≠ 99 := by
          intro e
          apply h
          simp [e]
        exact ih (b :: acc) (by simp; omega) c hc

theorem chunkAux_flatten : ∀ (cs acc : List Nat),
    (chunkAux acc cs).flatten = acc.reverse ++ cs := by
  intro cs
  induction cs with
  | nil =>
      intro acc
      simp only [chunkAux]
      by_cases h : acc.isEmpty
      · have : acc = [] := by simpa [List.isEmpty_iff] using h
        simp [h, this]
      · simp [h]
  | cons b bs ih =>
      intro acc
      simp only [chunkAux]
      by_cases h : (b == 10 || acc.length + 1 == 99) = true
      · rw [if_pos h]
        simp [ih, List.reverse_cons]
      · rw [if_neg h]
        simp [ih, List.reverse_cons]

theorem chunksS_flatten (file : List Nat) : (chunksS file).flatten = file := by
  simpa using chunkAux_flatten file []

theorem chunksS_len (file : List Nat) :
    ∀ c ∈ chunksS file, 1 ≤ c.length ∧ c.length ≤ 99 :=
  chunkAux_len file [] (by simp)

theorem chunksS_split {file : List Nat} (h : 99 < file.length) :
    2 ≤ (chunksS file).length := by
  rcases e : chunksS file with _ | ⟨c, rest⟩
  · exfalso
    have hf := chunksS_flatten file
    rw [e] at hf
    simp at hf
    rw [hf] at h
    simp at h
  · rcases rest with _ | ⟨c2, rest2⟩
    · exfalso
      have hf := chunksS_flatten file
      rw [e] at hf
      have hlen := chunksS_len file c (by rw [e]; simp)
      have hfc : file.length = c.length := by
        rw [← hf]
        simp
      omega
    · simp

/-! Helper lemma decomposing each `strtok_r` token of a line as a
delimiter-bounded occurrence inside the line. -/

theorem tokAux_spec : ∀ (cs acc pre0 : List Nat),
    (∀ c ∈ acc, isDelim c = false) → leftOkB pre0 = true →
    ∀ tok ∈ tokAux acc cs,
      tok ≠ [] ∧ (∀ c ∈ tok, isDelim c = false) ∧
        ∃ pre suf, pre0 ++ acc.reverse ++ cs = pre ++ tok ++ suf ∧
          leftOkB pre = true ∧ rightOkB suf = true := by
  intro cs
  induction cs with
  | nil =>
      intro acc pre0 hacc hpre tok htok
      simp only [tokAux] at htok
      by_cases h : acc.isEmpty
      · simp [h] at htok
      · rw [if_neg h] at htok
        have htk : tok = acc.reverse := by simpa using htok
        subst htk
        have hne : acc ≠ [] := fun e => h (by simp [e])
        refine ⟨by simpa using hne, fun c hc => hacc c (List.mem_reverse.mp hc), pre0, [], by simp, hpre, by simp [rightOkB]⟩
  | cons b bs ih =>
      intro acc pre0 hacc hpre tok htok
      simp only [tokAux] at htok
      by_cases hb : isDelim b = true
      · rw [if_pos hb] at htok
        by_cases h : acc.isEmpty
        · rw [if_pos h] at htok
          have hae : acc = [] := by simpa [List.isEmpty_iff] using h
          have := ih [] (pre0 ++ [b]) (by simp)
            (by simp [leftOkB, List.getLast?_concat, hb]) tok htok
          rcases this with ⟨h1, h2, pre, suf, heq, hl, hr⟩
          refine ⟨h1, h2, pre, suf, ?_, hl, hr⟩
          subst hae
          simpa using heq
        · rw [if_neg h] at htok
          have hne : acc ≠ [] := fun e => h (by simp [e])
          rcases List.mem_cons.mp htok with h1 | h2
          · subst h1
            refine ⟨by simpa using hne, fun c hc => hacc c (List.mem_reverse.mp hc),
              pre0, b :: bs, by simp, hpre, by simp [rightOkB, hb]⟩
          · have := ih [] (pre0 ++ acc.reverse ++ [b]) (by simp)
              (by simp [leftOkB, List.getLast?_concat, hb]) tok h2
            rcases this with ⟨h1, h2', pre, suf, heq, hl, hr⟩
            refine ⟨h1, h2', pre, suf, ?_, hl, hr⟩
            simpa using heq
      · rw [if_neg hb] at htok
        have hacc' : ∀ c ∈ b :: acc, isDelim c = false := by
          intro c hc
          rcases List.mem_cons.mp hc with h1 | h2
          · subst h1; simpa using hb
          · exact hacc c h2
        have := ih (b :: acc) pre0 hacc' hpre tok htok
        rcases this with ⟨h1, h2, pre, suf, heq, hl, hr⟩
        refine ⟨h1, h2, pre, suf, ?_, hl, hr⟩
        rw [← heq]
        simp

theorem tokenize_spec {s : List Nat} :
    ∀ tok ∈ tokenize s,
      tok ≠ [] ∧ (∀ c ∈ tok, isDelim c = false) ∧
        ∃ pre suf, s = pre ++ tok ++ suf ∧ leftOkB pre = true ∧ rightOkB suf = true := by
  intro tok htok
  have := tokAux_spec s [] [] (by simp) (by simp [leftOkB]) tok htok
  simpa using this

/-! Helper lemmas about `atoi` and the option model. -/

theorem atoiDigits_foldl : ∀ (cs : List Nat), cs.all isDigit = true →
    ∀ acc, atoiDigits cs acc = cs.foldl (fun a c => a * 10 + (c - 48)) acc := by
  intro cs
  induction cs with
  | nil => intro _ acc; simp [atoiDigits]
  | cons c cs ih =>
      intro h acc
      rw [List.all_cons, Bool.and_eq_true] at h
      simp [atoiDigits, h.1, List.foldl_cons, ih h.2]

theorem isDigit_not_space {c : Nat} (h : isDigit c = true) : isSpaceB c = false := by
  simp only [isDigit, Bool.and_eq_true, decide_eq_true_eq] at h
  simp only [isSpaceB, Bool.or_eq_false_iff, Bool.and_eq_false_iff]
  constructor
  · simp only [beq_eq_false_iff_ne, ne_eq]
    omega
  · right
    simp only [decide_eq_false_iff_not]
    omega

theorem atoi_cons_nospace {c : Nat} {r : List Nat} (hc : isSpaceB c = false) :
    atoi (c :: r) = if c = 43 then (atoiDigits r 0 : Int)
      else if c = 45 then -((atoiDigits r 0 : Int))
      else (atoiDigits (c :: r) 0 : Int) := by
  simp [atoi, List.dropWhile_cons, hc]

theorem atoi_intLit (s : List Nat) (v : Int) (h : intLitVal s = some v) : atoi s = v := by
  cases s with
  | nil => simp [intLitVal] at h
  | cons c r =>
      simp only [intLitVal] at h
      by_cases h43 : c = 43
      · subst h43
        rw [if_pos rfl] at h
        by_cases hr : r ≠ [] ∧ r.all isDigit = true
        · rw [if_pos hr] at h
          have hv := Option.some.inj h
          rw [atoi_cons_nospace (by decide), if_pos rfl, atoiDigits_foldl r hr.2 0, ← hv]
          rfl
        · rw [if_neg hr] at h
          exact absurd h (by simp)
      · rw [if_neg h43] at h
        by_cases h45 : c = 45
        · subst h45
          rw [if_pos rfl] at h
          by_cases hr : r ≠ [] ∧ r.all isDigit = true
          · rw [if_pos hr] at h
            have hv := Option.some.inj h
            rw [atoi_cons_nospace (by decide), if_neg (by decide), if_pos rfl,
              atoiDigits_foldl r hr.2 0, ← hv]
            rfl
          · rw [if_neg hr] at h
            exact absurd h (by simp)
        · rw [if_neg h45] at h
          by_cases hr : (c :: r).all isDigit = true
          · rw [if_pos hr] at h
            have hv := Option.some.inj h
            have hcd : isDigit c = true := by
              rw [List.all_cons, Bool.and_eq_true] at hr
              exact hr.1
            rw [atoi_cons_nospace (isDigit_not_space hcd), if_neg h43, if_neg h45,
              atoiDigits_foldl (c :: r) hr 0, ← hv]
            rfl
          · rw [if_neg hr] at h
            exact absurd h (by simp)

/-! Helper lemmas about the walker model. -/

theorem entryEvs_statError (fuel : Nat) (name : List Nat) :
    entryEvs fuel name FSNode.statError = [] := by
  cases fuel <;> rfl

theorem walkEvs_statError (fuel : Nat) (name : List Nat)
    (pre post : List (List Nat × FSNode)) :
    walkEvs fuel (pre ++ (name, FSNode.statError) :: post) = walkEvs fuel (pre ++ post) := by
  have hmid : (if dotName name then [] else entryEvs fuel name FSNode.statError) = ([] : List Ev) := by
    by_cases h : dotName name = true
    · simp [h]
    · simp only [Bool.not_eq_true] at h
      simp [h, entryEvs_statError]
  unfold walkEvs
  rw [List.map_append, List.map_append, List.map_cons]
  simp only [hmid, List.flatten_append, List.flatten_cons, List.nil_append]

/-! Claim theorems. -/

/-- Claim C1 — the claim says a line is reported at most once even with
multiple matching words; the code contradicts it (and its own `grep -Rnw`
documentation): `found` is reset to 0 after every word (src/prep.c line
151), so the line "the cat sat" with terms "the" and "cat" in
case-insensitive mode is printed twice, once per matching word. -/
theorem C1_line_reported_twice :
    analyze false [[116, 104, 101], [99, 97, 116]]
        [116, 104, 101, 32, 99, 97, 116, 32, 115, 97, 116, 10] =
      [(0, [116, 104, 101, 32, 99, 97, 116, 32, 115, 97, 116, 10]),
       (0, [116, 104, 101, 32, 99, 97, 116, 32, 115, 97, 116, 10])] := by decide

/-- Claim C2 — the claim says an openable directory is never opened and
searched as a text file and each entry is handled by exactly one branch; the
code contradicts it: for a subdirectory (name "d", openable and listable,
containing file "f"), the walker first opens the directory and dispatches a
searcher task on its handle (`Ev.dispatchDir`) and then also recurses into
it, dispatching on the contained file — two branches for one entry. -/
theorem C2_directory_opened_and_recursed :
    entryEvs 1 [100] (FSNode.dir true true [([102], FSNode.file true [104, 105])]) =
      [Ev.dispatchDir [100], Ev.dispatch [102] [104, 105]] := by decide

/-- Claim C3 counterexample — it is false that at most K tasks ever hold an
open handle: with capacity K = 1 and two files, the state reached by
spawn, release, spawn has two tasks holding open handles at the same
instant, because `sem_post` (src/prep.c line 160) precedes `fclose` (line
161), so a second task is admitted while the first one's handle is still
open. -/
theorem C3_handle_bound_fails :
    ¬ (∀ s : LimSt, Reach 1 2 s → handles s ≤ 1) := by
  intro h
  have h1 : LStep (limInit 1 2) ⟨0, 1, 1, 0, 0⟩ := by
    have := LStep.spawn (limInit 1 2) (by decide) (by decide)
    simpa [limInit] using this
  have h2 : LStep (⟨0, 1, 1, 0, 0⟩ : LimSt) ⟨1, 1, 0, 1, 0⟩ := by
    have := LStep.rel (⟨0, 1, 1, 0, 0⟩ : LimSt) (by decide)
    simpa using this
  have h3 : LStep (⟨1, 1, 0, 1, 0⟩ : LimSt) ⟨0, 0, 1, 1, 0⟩ := by
    have := LStep.spawn (⟨1, 1, 0, 1, 0⟩ : LimSt) (by decide) (by decide)
    simpa using this
  have hreach : Reach 1 2 ⟨0, 0, 1, 1, 0⟩ :=
    Relation.ReflTransGen.tail (Relation.ReflTransGen.tail
      (Relation.ReflTransGen.tail Relation.ReflTransGen.refl h1) h2) h3
  have := h _ hreach
  simp [handles] at this

/-- Claim C3 amended — every task acquires a slot (`sem_wait`) before it is
spawned and at most K tasks are simultaneously between acquisition and
release (`sem + scanning = K` is invariant); but since each task posts its
slot before closing its handle, more than K tasks may momentarily hold open
handles (see the counterexample). -/
theorem C3_scanning_bound (K n : Nat) (s : LimSt) (h : Reach K n s) :
    s.sem + s.scanning = K ∧ s.scanning ≤ K := by
  have main : s.sem + s.scanning = K := by
    induction h with
    | refl => simp [limInit]
    | tail _ step ih =>
        cases step with
        | spawn h1 h2 => simp only []; omega
        | rel h1 => simp only []; omega
        | close h1 => simp only []; omega
  exact ⟨main, by omega⟩

/-- Claim C3 amended, witness at the initial state of a K = 1 run. -/
theorem C3_scanning_bound_check :
    (limInit 1 2).sem + (limInit 1 2).scanning = 1 ∧ (limInit 1 2).scanning ≤ 1 :=
  C3_scanning_bound 1 2 (limInit 1 2) Relation.ReflTransGen.refl

/-- Claim C4 — whole-word matching: if no term has a case-mode-equal
occurrence in the line that is bounded on both sides by a delimiter or a
string boundary (every occurrence is a proper part of a longer token), then
the scan of that line prints nothing.  The NUL-freeness hypotheses state
that line and terms are C strings. -/
theorem C4_substring_never_reported (exact : Bool) (terms : List (List Nat))
    (line : List Nat) (hline : (0 : Nat) ∉ line)
    (hterms : ∀ t ∈ terms, (0 : Nat) ∉ t)
    (hocc : ∀ t ∈ terms, modeOccB exact line t = false) :
    (wordLoop exact terms (tokenize line) false).1 = 0 := by
  rw [wordLoop_false]
  simp only [List.length_eq_zero]
  rw [List.filter_eq_nil_iff]
  intro w hw
  simp only [Bool.not_eq_true]
  by_contra hany
  simp only [Bool.not_eq_false, List.any_eq_true] at hany
  rcases hany with ⟨t, ht, hwt⟩
  rcases tokenize_spec w hw with ⟨hne, hnd, pre, suf, heq, hl, hr⟩
  have hsub : ∀ c ∈ w, c ∈ line := by
    intro c hc
    rw [heq]
    simp [hc]
  have h0w : (0 : Nat) ∉ w := fun h => hline (hsub 0 h)
  have hlen : w.length = t.length := wordEqB_length h0w (hterms t ht) hwt
  have hmode : modeOccB exact line t = true := by
    unfold modeOccB
    rw [List.any_eq_true]
    refine ⟨pre.length, ?_, ?_⟩
    · rw [List.mem_range]
      have : line.length = pre.length + w.length + suf.length := by
        rw [heq]
        simp [List.length_append]
        omega
      omega
    · have h1 : line.take pre.length = pre := by
        rw [heq, List.append_assoc]
        exact List.take_left pre (w ++ suf)
      have h2 : line.drop pre.length = w ++ suf := by
        rw [heq, List.append_assoc]
        exact List.drop_left pre (w ++ suf)
      have h3 : (w ++ suf).take t.length = w := by
        rw [← hlen]
        exact List.take_left w suf
      have h4 : (w ++ suf).drop t.length = suf := by
        rw [← hlen]
        exact List.drop_left w suf
      simp only [h1, h2, h3, h4, hl, hr, hwt, Bool.and_true, hlen, beq_self_eq_true]
  rw [hocc t ht] at hmode
  exact Bool.noConfusion hmode

/-- Claim C4, witness: the line "theme park" with term "the" in exact mode —
"the" occurs only inside the longer token "theme", no bounded occurrence
exists, and the line scan prints nothing. -/
theorem C4_substring_never_reported_check :
    (∀ t ∈ [[116, 104, 101]],
        modeOccB true [116, 104, 101, 109, 101, 32, 112, 97, 114, 107, 10] t = false) ∧
    (wordLoop true [[116, 104, 101]]
      (tokenize [116, 104, 101, 109, 101, 32, 112, 97, 114, 107, 10]) false).1 = 0 :=
  ⟨by decide, C4_substring_never_reported true [[116, 104, 101]]
    [116, 104, 101, 109, 101, 32, 112, 97, 114, 107, 10]
    (by decide) (by decide) (by decide)⟩

/-- Claim C5 — the reader splits the file into chunks of at most 99 content
bytes (100 including the NUL terminator of the `fgets` buffer), losing no
byte; the records printed carry consecutive chunk indices starting at 0
(`enumFrom 0`); and any file longer than 99 bytes — in particular a physical
line longer than the cap — is split into at least two reported lines. -/
theorem C5_chunked_reading (exact : Bool) (terms : List (List Nat)) (file : List Nat) :
    (∀ c ∈ chunksS file, 1 ≤ c.length ∧ c.length + 1 ≤ 100) ∧
    (chunksS file).flatten = file ∧
    ((chunksS file).enumFrom 0).map Prod.fst = List.range' 0 (chunksS file).length ∧
    analyze exact terms file =
      ((chunksS file).enumFrom 0).flatMap
        (fun p => List.replicate (matchCount exact terms p.2) p) ∧
    (99 < file.length → 2 ≤ (chunksS file).length) := by
  refine ⟨?_, chunksS_flatten file, ?_, analyze_enum exact terms file,
    fun h => chunksS_split h⟩
  · intro c hc
    have := chunksS_len file c hc
    omega
  · rw [List.enumFrom_map_fst]

/-- Claim C5, witness: a 120-byte file (one overlong physical line) is split
into at least two chunks. -/
theorem C5_chunked_reading_check :
    99 < (List.replicate 120 97 : List Nat).length ∧
    2 ≤ (chunksS (List.replicate 120 97)).length :=
  ⟨by decide, (C5_chunked_reading true [] (List.replicate 120 97)).2.2.2.2 (by decide)⟩

/-- Claim C6 counterexample — for path "p", term "the" (exact mode) and file
"the" followed by a newline, the single emitted record is the spec's format
string plus one extra newline byte, not the spec's format string: the claim
that nothing beyond the raw line is written is false. -/
theorem C6_extra_newline :
    emitted [112] true [[116, 104, 101]] [116, 104, 101, 10] =
      [specFmt [112] 0 [116, 104, 101, 10] ++ [10]] ∧
    emitted [112] true [[116, 104, 101]] [116, 104, 101, 10] ≠
      [specFmt [112] 0 [116, 104, 101, 10]] := by decide

/-- Claim C6 amended — on each matching word (so a line with several
matching words is written once per such word), the task writes
`<path>:<line_number>:<raw_chunk>` followed by one extra newline byte from
the `printf` format string; the raw chunk itself retains its own trailing
newline when it has one. -/
theorem C6_emission_format (path : List Nat) (exact : Bool)
    (terms : List (List Nat)) (file : List Nat) :
    emitted path exact terms file =
      ((chunksS file).enumFrom 0).flatMap
        (fun p => List.replicate (matchCount exact terms p.2)
          (specFmt path p.1 p.2 ++ [10])) := by
  have hfmt : ∀ (n : Nat) (c : List Nat), fmtBytes path n c = specFmt path n c ++ [10] := by
    intro n c
    simp [fmtBytes, specFmt]
  unfold emitted
  rw [analyze_enum, List.map_flatMap]
  congr 1
  funext p
  rw [List.map_replicate, hfmt]

/-- Claim C7 amended — when `opendir` on the root fails, the run emits
exactly one diagnostic and no matches, but the process still exits with
status 0: `ls` just returns after `perror` and `main` ends in
`pthread_exit(0)`. -/
theorem C7_unreadable_root (fuel : Nat) (exact : Bool) (terms : List (List Nat))
    (root : FSNode) (h : listableRoot root = false) :
    runRoot fuel exact terms root = ⟨1, [], 0⟩ := by
  have hls : lsRun fuel root = [Ev.diag] := by
    cases root with
    | statError => rfl
    | file op c => rfl
    | dir l op e =>
        cases l with
        | false => rfl
        | true => simp [listableRoot] at h
  simp [runRoot, hls, isDiag, evMatches]

/-- Claim C7 counterexample — on an unlistable root the run produces one
diagnostic and no matches as claimed, but the exit status is 0, refuting the
claimed non-zero exit. -/
theorem C7_exit_status_zero :
    (runRoot 1 false [] (FSNode.dir false true [])).diagCount = 1 ∧
    (runRoot 1 false [] (FSNode.dir false true [])).matchList = [] ∧
    ¬ ((runRoot 1 false [] (FSNode.dir false true [])).exitCode ≠ 0) := by decide

/-- Claim C7 amended, witness at a concrete unlistable root. -/
theorem C7_unreadable_root_check :
    listableRoot (FSNode.dir false true []) = false ∧
    runRoot 2 true [] (FSNode.dir false true []) = ⟨1, [], 0⟩ :=
  ⟨rfl, C7_unreadable_root 2 true [] (FSNode.dir false true []) rfl⟩

/-- Claim C8 counterexample — the argument "3x" is malformed (not an
optional sign followed by digits), yet with 4 available cores the program
does not abort: `atoi` parses the leading "3" and the range check passes, so
the traversal runs. -/
theorem C8_malformed_accepted :
    intLitVal [51, 120] = none ∧
    tOption 4 [51, 120] = CfgOutcome.proceed 3 ∧
    runWithT 4 [51, 120] 1 false [] (FSNode.dir true true []) ≠ none := by decide

/-- Claim C8 amended — the program aborts before any traversal exactly when
the `atoi` value of the `-t` argument lies outside [1, numCores]; for a
well-formed integer argument the `atoi` value is its true value, so
out-of-range well-formed levels abort as claimed, but a malformed argument
is judged by its parsed digit prefix (0 when there is none). -/
theorem C8_abort_criterion :
    (∀ (n : Int) (arg : List Nat) (fuel : Nat) (exact : Bool)
        (terms : List (List Nat)) (root : FSNode),
      runWithT n arg fuel exact terms root = none ↔ (atoi arg < 1 ∨ n < atoi arg)) ∧
    (∀ (s : List Nat) (v : Int), intLitVal s = some v → atoi s = v) := by
  constructor
  · intro n arg fuel exact terms root
    unfold runWithT tOption
    by_cases h : atoi arg < 1 ∨ n < atoi arg
    · simp [h]
    · simp [h]
  · exact atoi_intLit

/-- Claim C8 amended, witness: "5" is well formed with value 5. -/
theorem C8_abort_criterion_check : intLitVal [53] = some 5 ∧ atoi [53] = 5 :=
  ⟨by decide, C8_abort_criterion.2 [53] 5 (by decide)⟩

/-- Claim C9 — word/term comparison is byte-exact in exact mode and
`tolower`-insensitive otherwise; concretely "The", "THE" and "the" all match
the term "the" in case-insensitive mode, while only "the" matches it in
exact mode. -/
theorem C9_case_modes :
    (∀ w t : List Nat, (0 : Nat) ∉ w → (0 : Nat) ∉ t →
      ((wordEqB true w t = true ↔ w = t) ∧
       (wordEqB false w t = true ↔ w.map tolower = t.map tolower))) ∧
    wordEqB false [84, 104, 101] [116, 104, 101] = true ∧
    wordEqB false [84, 72, 69] [116, 104, 101] = true ∧
    wordEqB false [116, 104, 101] [116, 104, 101] = true ∧
    wordEqB true [116, 104, 101] [116, 104, 101] = true ∧
    wordEqB true [84, 104, 101] [116, 104, 101] = false ∧
    wordEqB true [84, 72, 69] [116, 104, 101] = false := by
  refine ⟨fun w t hw ht => ⟨wordEqB_exact hw ht, wordEqB_insens hw ht⟩,
    ?_, ?_, ?_, ?_, ?_, ?_⟩ <;> decide

/-- Claim C9, witness applying the general comparison characterization. -/
theorem C9_case_modes_check :
    (0 : Nat) ∉ [(116 : Nat), 104, 101] ∧
    wordEqB true [116, 104, 101] [116, 104, 101] = true :=
  ⟨by decide,
   (C9_case_modes.1 [116, 104, 101] [116, 104, 101] (by decide) (by decide)).1.mpr rfl⟩

/-- Claim C10 — a directory entry whose `stat` fails is skipped entirely and
silently: it contributes no diagnostic, no open, no dispatched task and no
recursion, and the walk over the remaining siblings is exactly the walk
without that entry. -/
theorem C10_stat_failure_skipped (fuel : Nat) (name : List Nat)
    (pre post : List (List Nat × FSNode)) :
    entryEvs fuel name FSNode.statError = [] ∧
    walkEvs fuel (pre ++ (name, FSNode.statError) :: post) = walkEvs fuel (pre ++ post) :=
  ⟨entryEvs_statError fuel name, walkEvs_statError fuel name pre post⟩

end Paragrep
